import Mathlib

/-!
# Verification of `view_docs.py` (local markdown documentation viewer)

Shallow embedding of the core of `view_docs.py`: the fence-dedent
pre-processing pass, the PlantUML fence re-tagging, title extraction,
navigation generation (exclusion, ordering, display names, descriptions)
and the `/_check_update` endpoint.

Strings are modelled as `String` / `List Char`.  Python string scalars are
Unicode code points, exactly as Lean `Char`; the case-mapping and
whitespace predicates are embedded on the ASCII range (`str.lower`,
`str.upper`, `\s`, `str.strip` agree with the embedding there).
-/

/-- ASCII whitespace, as matched by Python's `\s`, `str.strip`,
`str.rstrip` on the ASCII range (space, tab, newline, carriage return,
vertical tab, form feed). -/
def isPySpace (c : Char) : Bool :=
  c = ' ' || c = '\t' || c = '\n' || c = '\r' || c = '\x0b' || c = '\x0c'

/-- The backtick character, U+0060 (written via its code point). -/
def tick : Char := Char.ofNat 96

/-- The three-backtick code fence marker `\x60\x60\x60`. -/
def fence3 : List Char := [tick, tick, tick]

/-- Python `str.lstrip()` (ASCII whitespace). -/
def lstripL (l : List Char) : List Char := l.dropWhile isPySpace

/-- Python `str.rstrip()` (ASCII whitespace). -/
def rstripL (l : List Char) : List Char := (l.reverse.dropWhile isPySpace).reverse

/-- Python `str.strip()` (ASCII whitespace). -/
def stripL (l : List Char) : List Char := rstripL (lstripL l)

/-- Python `str.split(sep)` for a one-character separator. -/
def splitOnChar (sep : Char) : List Char → List (List Char)
  | [] => [[]]
  | c :: cs =>
    match splitOnChar sep cs with
    | [] => [[]]
    | l :: ls => if c = sep then [] :: l :: ls else (c :: l) :: ls

/-- Python `sep.join(parts)` for a one-character separator. -/
def joinWith (sep : Char) : List (List Char) → List Char
  | [] => []
  | [x] => x
  | x :: xs => x ++ sep :: joinWith sep xs

/-- Python `s.replace('\r\n', '\n')`: left-to-right, non-overlapping. -/
def replaceCRLF : List Char → List Char
  | '\r' :: '\n' :: rest => '\n' :: replaceCRLF rest
  | c :: rest => c :: replaceCRLF rest
  | [] => []

/-- Python `s.replace('\r', '\n')`. -/
def replaceCR : List Char → List Char
  | '\r' :: rest => '\n' :: replaceCR rest
  | c :: rest => c :: replaceCR rest
  | [] => []

/-- `view_docs.py` line 540: normalize line endings,
`md_content.replace('\r\n', '\n').replace('\r', '\n')`. -/
def normalizeNewlines (s : List Char) : List Char := replaceCR (replaceCRLF s)

/-- `view_docs.py` line 553: `re.match(r'^(\s{2,})(\x60\x60\x60.*)$', line_stripped_right)`.
The regex matches iff the line's leading whitespace run has length ≥ 2 and is
immediately followed by three backticks; group 1 is the whitespace run, group 2
the rest of the (right-stripped) line.  Returns `(len(group(1)), group(2))`. -/
def fenceMatch (l : List Char) : Option (Nat × List Char) :=
  let ws := l.takeWhile isPySpace
  let rest := l.dropWhile isPySpace
  if 2 ≤ ws.length ∧ fence3.isPrefixOf rest then some (ws.length, rest) else none

/-- One iteration of the fence-dedent loop, `view_docs.py` lines 547-578.
State: `(in_indented_block, indent_to_remove)`.  Returns the new state and
the line appended to `processed_lines`. -/
def dedentStep (st : Bool × Nat) (line : List Char) : (Bool × Nat) × List Char :=
  match st with
  | (false, k) =>
    match fenceMatch (rstripL line) with
    | some (n, fence) => ((true, n), fence)
    | none => ((false, k), line)
  | (true, n) =>
    if stripL line = fence3 then ((false, 0), fence3)
    else if (List.replicate n ' ').isPrefixOf line then ((true, n), line.drop n)
    else if stripL line = [] then ((true, n), [])
    else ((true, n), line)

/-- The fence-dedent loop over all lines: a single forward pass whose only
state is `(in_indented_block, indent_to_remove)`. -/
def processLines (st : Bool × Nat) : List (List Char) → List (List Char)
  | [] => []
  | l :: ls => (dedentStep st l).2 :: processLines (dedentStep st l).1 ls

/-- `view_docs.py` lines 542-580: split the (already newline-normalized)
content into lines, run the dedent pass, and re-join with `'\n'`. -/
def fence_dedent (md : List Char) : List Char :=
  joinWith '\n' (processLines (false, 0) (splitOnChar '\n' md))

/-- Index of the first occurrence of `\x60\x60\x60` in `cs`, if any
(the non-greedy `(.*?)\x60\x60\x60` stops at the first occurrence). -/
def findFence3 (cs : List Char) : Option Nat :=
  if fence3.isPrefixOf cs then some 0
  else
    match cs with
    | [] => none
    | _ :: t => (findFence3 t).map (· + 1)

/-- Fuel-driven scan for `view_docs.py` lines 584-589:
`re.sub(r'\x60\x60\x60(?:plantuml|puml)\n(.*?)\x60\x60\x60', ..., flags=re.DOTALL)`
which rewrites a `puml`-tagged fence to `plantuml` and leaves `plantuml`
fences unchanged.  The fuel is the input length; each step consumes at
least one character, so `pumlSub` below is total and faithful. -/
def pumlSubF : Nat → List Char → List Char
  | 0, cs => cs
  | fuel + 1, cs =>
    match cs with
    | [] => []
    | c :: cs' =>
      let pl := fence3 ++ "plantuml\n".data
      let pu := fence3 ++ "puml\n".data
      if pl.isPrefixOf cs then
        match findFence3 (cs.drop pl.length) with
        | some i =>
          pl ++ (cs.drop pl.length).take i ++ fence3 ++
            pumlSubF fuel (cs.drop (pl.length + i + 3))
        | none => c :: pumlSubF fuel cs'
      else if pu.isPrefixOf cs then
        match findFence3 (cs.drop pu.length) with
        | some i =>
          pl ++ (cs.drop pu.length).take i ++ fence3 ++
            pumlSubF fuel (cs.drop (pu.length + i + 3))
        | none => c :: pumlSubF fuel cs'
      else c :: pumlSubF fuel cs'

/-- The PlantUML fence re-tagging substitution (lines 584-589). -/
def pumlSub (cs : List Char) : List Char := pumlSubF cs.length cs

/-- The text handed to `markdown.Markdown(...).convert` in `do_GET`
(lines 540-600): newline normalization, then fence dedent, then the
PlantUML re-tagging. -/
def conversion_input (raw : List Char) : List Char :=
  pumlSub (fence_dedent (normalizeNewlines raw))

/-- Process-wide configuration fixed at startup (`view_docs.py` lines
74-125): the served directory, the default document (`README.md`, or the
file named on the command line, lines 83-88), and the exclusion set.
`handle_update_check` holds no other server state. -/
structure Config where
  docsDir : String
  defaultFile : String
  excludeDirs : List String
deriving Repr, DecidableEq

/-- The filesystem visible to the server: relative filename ↦ `st_mtime`.
The modification time is modelled as a natural number; the endpoint only
ever stringifies and compares it. -/
abbrev FS := List (String × Nat)

/-- `file_path.exists()` / `file_path.stat().st_mtime` against the model
filesystem. -/
def lookupFile (fs : FS) (name : String) : Option Nat :=
  (fs.find? (fun p => p.1 = name)).map (·.2)

/-- Last path component of `DOCS_DIR / filename`, as `pathlib`'s `.name`. -/
def pyBasename (p : String) : String :=
  ⟨((splitOnChar '/' p.data).filter (· ≠ [])).getLastD []⟩

/-- Position of the last `'.'` in a list, if any. -/
def rfindDotAux : List Char → Nat → Option Nat → Option Nat
  | [], _, acc => acc
  | c :: cs, i, acc => rfindDotAux cs (i + 1) (if c = '.' then some i else acc)

/-- `name.rfind('.')`. -/
def rfindDot (name : List Char) : Option Nat := rfindDotAux name 0 none

/-- `pathlib.PurePath.suffix`: the extension of the last path component,
i.e. `name[i:]` for the last dot position `i` when `0 < i < len(name)-1`,
else `''`. -/
def pySuffix (p : String) : String :=
  let nm := pyBasename p
  match rfindDot nm.data with
  | some i => if 0 < i ∧ i < nm.data.length - 1 then ⟨nm.data.drop i⟩ else ""
  | none => ""

/-- Body of the JSON response of `/_check_update` (lines 738-750). -/
inductive UpdateBody where
  | ok (modified : String) (file : String)
  | err (error : String) (file : String)
deriving Repr, DecidableEq

/-- The HTTP response as assembled by `handle_update_check`
(lines 752-757): status, content type, cache-control header, JSON body. -/
structure HttpResponse where
  status : Nat
  contentType : String
  cacheControl : Option String
  body : UpdateBody
deriving Repr, DecidableEq

/-- `MarkdownHandler.handle_update_check` (lines 723-757).  The `file`
query parameter defaults to `'README.md'` when absent; the body is an
error payload unless the resolved file exists and has suffix `.md`; the
response always has status 200 with caching disabled (the whole body
computation sits in a `try/except`, so no exception escapes — the
embedding is a total function).  The server configuration is passed
through untouched: the handler reads and writes no server-held state. -/
def handle_update_check (cfg : Config) (fs : FS) (fileParam : Option String) :
    Config × HttpResponse :=
  let filename := fileParam.getD "README.md"
  let body :=
    match lookupFile fs filename with
    | some m =>
      if pySuffix filename = ".md" then UpdateBody.ok (toString m) filename
      else UpdateBody.err "File not found" filename
    | none => UpdateBody.err "File not found" filename
  (cfg,
    { status := 200
      contentType := "application/json"
      cacheControl := some "no-cache, no-store, must-revalidate"
      body := body })

/-- Python `str.lower()` on the ASCII range. -/
def pyLower (s : String) : String := ⟨s.data.map Char.toLower⟩

/-- Python `str.strip()` on `String`. -/
def pyStrip (s : String) : String := ⟨stripL s.data⟩

/-- Python string `<=`: lexicographic comparison by code point. -/
def lexLeB : List Char → List Char → Bool
  | [], _ => true
  | _ :: _, [] => false
  | a :: as, b :: bs => if a = b then lexLeB as bs else decide (a < b)

/-- Python string `<`: strict lexicographic comparison by code point. -/
def lexLtB : List Char → List Char → Bool
  | _, [] => false
  | [], _ :: _ => true
  | a :: as, b :: bs => if a = b then lexLtB as bs else decide (a < b)

/-- `a <= b` on filenames, as Python compares strings. -/
def strLe (a b : String) : Prop := lexLeB a.data b.data = true

/-- `a < b` on filenames, as Python compares strings. -/
def strLt (a b : String) : Prop := lexLtB a.data b.data = true

/-- `sort_key` (`view_docs.py` lines 647-650): the numeric component of the
key `(0, filename)` for the literal `'README.md'`, `(1, filename)`
otherwise.  Note the source hard-codes `'README.md'` here and does not
consult `DEFAULT_FILE`. -/
def navKey (f : String) : Nat := if f = "README.md" then 0 else 1

/-- Comparison of two filenames by `sort_key` under Python's
tuple-then-string ordering. -/
def navLe (a b : String) : Prop :=
  navKey a < navKey b ∨ (navKey a = navKey b ∧ strLe a b)

instance : DecidableRel strLe := fun a b =>
  show Decidable (lexLeB a.data b.data = true) from inferInstance

instance : DecidableRel strLt := fun a b =>
  show Decidable (lexLtB a.data b.data = true) from inferInstance

instance : DecidableRel navLe := fun a b =>
  show Decidable (_ ∨ (_ ∧ strLe a b)) from inferInstance

/-- `md_files.sort(key=sort_key)` (line 652).  Python's `list.sort` is a
stable sort by key; insertion sort is the same stable sort, so the two are
extensionally equal. -/
def sortNavFiles (files : List String) : List String :=
  List.insertionSort navLe files

/-- One file found by `DOCS_DIR.glob('*.md')`: the segments of its
resolved path (`file_path.parts`), the last one being the filename. -/
structure MdFile where
  parts : List String
deriving Repr, DecidableEq

/-- `file_path.name`. -/
def MdFile.name (f : MdFile) : String := f.parts.getLastD ""

/-- Lines 641-643: keep the file unless
`any(excluded in path_parts for excluded in EXCLUDE_DIRS)` where
`path_parts = [p.lower() for p in file_path.parts]`. -/
def notExcluded (excl : List String) (f : MdFile) : Bool :=
  ! excl.any (fun e => (f.parts.map pyLower).contains e)

/-- The filenames listed by `generate_nav` (lines 638-652): glob results
filtered by the exclusion set, then sorted with `sort_key`.  Every nav
entry (link, display name, description) is generated from exactly this
list. -/
def navFileNames (excl : List String) (files : List MdFile) : List String :=
  sortNavFiles ((files.filter (notExcluded excl)).map MdFile.name)

/-- `EXCLUDE_DIRS` (lines 121-125):
`set(d.strip().lower() for d in env.split(',') if d.strip())`.
The set is modelled as the list of its members (only membership is ever
used). -/
def mkExcludeDirs (env : String) : List String :=
  ((splitOnChar ',' env.data).filter (fun d => stripL d ≠ [])).map
    (fun d => (⟨(stripL d).map Char.toLower⟩ : String))

/-- Python `str.isupper()` on the ASCII range: at least one cased
character and no lowercase character. -/
def pyIsUpperL (s : List Char) : Bool :=
  s.any (fun c => c.isAlpha) && s.all (fun c => !c.isLower)

/-- Python `str.capitalize()` on the ASCII range: first character
uppercased, the rest lowercased. -/
def pyCapitalizeL : List Char → List Char
  | [] => []
  | c :: cs => c.toUpper :: cs.map Char.toLower

/-- Python `s.replace('.md', '')`: removes every occurrence of `.md`,
scanning left to right, non-overlapping. -/
def replaceMd : List Char → List Char
  | '.' :: 'm' :: 'd' :: rest => replaceMd rest
  | c :: rest => c :: replaceMd rest
  | [] => []

/-- Whether `.md` occurs as a substring (mirrors the recursion of
`replaceMd`). -/
def hasMd : List Char → Bool
  | '.' :: 'm' :: 'd' :: _ => true
  | _ :: rest => hasMd rest
  | [] => false

/-- The per-segment formatting of `format_display_name` (lines 684-690):
a segment that is all-caps of length ≤ 5 is kept as-is, any other segment
is capitalized. -/
def fmtPart (p : List Char) : List Char :=
  if pyIsUpperL p = true ∧ p.length ≤ 5 then p else pyCapitalizeL p

/-- `MarkdownHandler.format_display_name` (lines 669-696). -/
def format_display_name (filename : String) : String :=
  let name := replaceMd filename.data
  if name.map Char.toUpper = "README".data then "README"
  else
    let parts := splitOnChar '_' name
    let formatted := parts.map fmtPart
    if (1 < parts.length ∧ pyIsUpperL (parts.headD []) = true ∧
        (parts.headD []).length ≤ 5) ∧ 1 < formatted.length then
      ⟨formatted.headD [] ++ " - ".data ++ joinWith ' ' formatted.tail⟩
    else ⟨joinWith ' ' formatted⟩

/-- A line that is, on its own, a top-level heading with text:
`'#'`, at least one whitespace character, then a remainder containing a
non-whitespace character; the heading text is everything after the
whitespace run.  (This is the heading notion the spec describes; the
source's multiline regex can additionally match across line breaks, see
`titleFromLines`.) -/
def lineHeading (l : List Char) : Option (List Char) :=
  match l with
  | c :: rest =>
    if c = '#' ∧ 1 ≤ (rest.takeWhile isPySpace).length ∧
        rest.dropWhile isPySpace ≠ [] then
      some (rest.dropWhile isPySpace)
    else none
  | [] => none

/-- First line of `ls` containing a non-whitespace character. -/
def firstNonWsLine (ls : List (List Char)) : Option (List Char) :=
  ls.find? (fun m => !(m.all isPySpace))

/-- Last nonempty line of `ls`. -/
def lastNonEmptyLine (ls : List (List Char)) : Option (List Char) :=
  ((ls.filter (fun m => !m.isEmpty)).getLast?)

/-- Attempt of `re.search(r'^#\s+(.+)$', text, re.MULTILINE)` to match at
a line starting with `'#'`, where `rest` is that line after the `'#'` and
`ls` the following lines.  Derived regex semantics: `\s` matches `'\n'`,
so the greedy `\s+` run may cross line breaks; `.` does not match `'\n'`
and `$` holds before `'\n'` or at the end.  Hence:
* if `rest` has a non-whitespace character, the match succeeds iff the
  whitespace prefix of `rest` is nonempty, and group 1 is the remainder
  of `rest` from its first non-whitespace character;
* otherwise the run swallows the newline (so it is nonempty) and extends
  through whole-whitespace lines; if some later line has a
  non-whitespace character, group 1 is that (first such) line from its
  first non-whitespace character;
* otherwise everything to the end of the text is whitespace and `\s+`
  backtracks: the match succeeds iff some position `j ≥ 1` after the
  `'#'` holds a non-newline character; for the largest such `j` every
  later character is `'\n'`, so group 1 is that single character — the
  last character of the last nonempty line (all lines being whitespace),
  subject to `j ≥ 1`, which only restricts the case where that line is
  `rest` itself (then `rest` needs length ≥ 2). -/
def matchHashCross (rest : List Char) (ls : List (List Char)) : Option (List Char) :=
  if (rest.takeWhile isPySpace).length < rest.length then
    if (rest.takeWhile isPySpace).length = 0 then none
    else some (rest.dropWhile isPySpace)
  else
    match firstNonWsLine ls with
    | some m => some (m.dropWhile isPySpace)
    | none =>
      match lastNonEmptyLine ls with
      | some m => some [m.getLastD ' ']
      | none => if 2 ≤ rest.length then some [rest.getLastD ' '] else none

/-- `re.search(r'^#\s+(.+)$', text, re.MULTILINE)` over the lines of
`text` (split on `'\n'`): the anchor `^` restricts match starts to line
starts, so the search walks the lines in order, attempting
`matchHashCross` at every line that starts with `'#'`, and returns the
first group 1 found. -/
def titleFromLines : List (List Char) → Option (List Char)
  | [] => none
  | l :: ls =>
    match l with
    | c :: rest =>
      if c = '#' then
        match matchHashCross rest ls with
        | some g => some g
        | none => titleFromLines ls
      else titleFromLines ls
    | [] => titleFromLines ls

/-- `do_GET` lines 616-618: the page title is group 1 of the first
multiline heading match in `md_content` — the fully pre-processed text,
the same text handed to markdown conversion — and otherwise
`file_path.stem`, the filename without its extension (passed here as
`stem`). -/
def page_title (raw : List Char) (stem : String) : String :=
  match titleFromLines (splitOnChar '\n' (conversion_input raw)) with
  | some t => ⟨t⟩
  | none => stem

/-- The code points removed from descriptions by
`re.sub(r'[⭐🏗️🔧📋❓🔍📊📖]', '', title)` (line 711).  A character class
is a set of single code points; `🏗️` contributes U+1F3D7 plus the
variation selector U+FE0F. -/
def emojiChars : List Char :=
  [Char.ofNat 0x2B50, Char.ofNat 0x1F3D7, Char.ofNat 0xFE0F,
   Char.ofNat 0x1F527, Char.ofNat 0x1F4CB, Char.ofNat 0x2753,
   Char.ofNat 0x1F50D, Char.ofNat 0x1F4CA, Char.ofNat 0x1F4D6]

/-- `re.sub` with a character class and empty replacement deletes each
matching character. -/
def removeEmoji (s : List Char) : List Char :=
  s.filter (fun c => !(emojiChars.contains c))

/-- `''.join([f.readline() for _ in range(5)])`: the prefix of the file
up to and including the fifth newline (`readline` keeps the `'\n'`;
beyond the end of file it returns `''`). -/
def takeLinesC : Nat → List Char → List Char
  | 0, _ => []
  | _ + 1, [] => []
  | n + 1, '\n' :: cs => '\n' :: takeLinesC n cs
  | n + 1, c :: cs => c :: takeLinesC (n + 1) cs

/-- `MarkdownHandler.get_file_description` (lines 698-715).  The file
argument is `some content` when the file exists and is readable and
`none` otherwise (nonexistent file, or `open`/read raising — the body is
wrapped in `try/except Exception: pass`, so the function is total and
falls back to `filename.replace('.md', '')`).  Only the first five lines
are ever read; a found heading is stripped, emoji-filtered and stripped
again. -/
def get_file_description (file : Option (List Char)) (filename : String) : String :=
  match file with
  | some content =>
    match titleFromLines (splitOnChar '\n' (takeLinesC 5 content)) with
    | some t => ⟨stripL (removeEmoji (stripL t))⟩
    | none => ⟨replaceMd filename.data⟩
  | none => ⟨replaceMd filename.data⟩

/-! ## Helper lemmas -/

theorem takeWhile_append_all {p : Char → Bool} {ws : List Char} {d : Char}
    {t : List Char} (hws : ∀ c ∈ ws, p c = true) (hd : p d = false) :
    (ws ++ d :: t).takeWhile p = ws := by
  induction ws with
  | nil => simp [List.takeWhile, hd]
  | cons c cs ih =>
    simp only [List.cons_append, List.takeWhile]
    rw [hws c (by simp)]
    simp [ih (fun c hc => hws c (by simp [hc]))]

theorem dropWhile_append_all {p : Char → Bool} {ws : List Char} {d : Char}
    {t : List Char} (hws : ∀ c ∈ ws, p c = true) (hd : p d = false) :
    (ws ++ d :: t).dropWhile p = d :: t := by
  induction ws with
  | nil => simp [List.dropWhile, hd]
  | cons c cs ih =>
    simp only [List.cons_append, List.dropWhile]
    rw [hws c (by simp)]
    simpa using ih (fun c hc => hws c (by simp [hc]))

theorem isPrefixOf_exists {l₁ l₂ : List Char} (h : l₁.isPrefixOf l₂ = true) :
    ∃ t, l₂ = l₁ ++ t := by
  obtain ⟨t, ht⟩ := List.isPrefixOf_iff_prefix.mp h
  exact ⟨t, ht.symm⟩

/-! ## C1: the fence-dedent pass -/

/-- **C1** (amended).  Behaviour of the fence-dedent pass: it is a single
forward pass (`processLines`) whose only state is `(inside?, indent)`,
it never drops a line; outside a fence, a line whose right-strip is a
whitespace run of length `n ≥ 2` followed by a fence marker opens a
block and is emitted as the marker with zero indent; inside a block, a
line stripping to the bare marker closes the block and is emitted with
zero indent, a line beginning with `n` spaces is emitted with exactly
those `n` spaces stripped, any other blank line is emitted as the empty
string, and any other line passes through unchanged. -/
theorem c1_fence_dedent_amended :
    (∀ st lines, (processLines st lines).length = lines.length) ∧
    (∀ st l ls, processLines st (l :: ls) =
      (dedentStep st l).2 :: processLines (dedentStep st l).1 ls) ∧
    (∀ k l ws fence, rstripL l = ws ++ fence →
      (∀ c ∈ ws, isPySpace c = true) → 2 ≤ ws.length →
      fence3.isPrefixOf fence = true →
      dedentStep (false, k) l = ((true, ws.length), fence)) ∧
    (∀ n l, stripL l = fence3 → dedentStep (true, n) l = ((false, 0), fence3)) ∧
    (∀ n l, stripL l ≠ fence3 → (List.replicate n ' ').isPrefixOf l = true →
      dedentStep (true, n) l = ((true, n), l.drop n)) ∧
    (∀ n l, stripL l ≠ fence3 → (List.replicate n ' ').isPrefixOf l = false →
      stripL l = [] → dedentStep (true, n) l = ((true, n), [])) ∧
    (∀ n l, stripL l ≠ fence3 → (List.replicate n ' ').isPrefixOf l = false →
      stripL l ≠ [] → dedentStep (true, n) l = ((true, n), l)) := by
  refine ⟨?_, fun st l ls => rfl, ?_, ?_, ?_, ?_, ?_⟩
  · intro st lines
    induction lines generalizing st with
    | nil => rfl
    | cons l ls ih => simp [processLines, ih]
  · intro k l ws fence h hws hlen hpre
    obtain ⟨t, ht⟩ := isPrefixOf_exists hpre
    have htick : isPySpace tick = false := by decide
    have h1 : (rstripL l).takeWhile isPySpace = ws := by
      rw [h, ht]
      show List.takeWhile isPySpace (ws ++ tick :: tick :: tick :: t) = ws
      exact takeWhile_append_all hws htick
    have h2 : (rstripL l).dropWhile isPySpace = fence := by
      rw [h, ht]
      show List.dropWhile isPySpace (ws ++ tick :: tick :: tick :: t) =
        tick :: tick :: tick :: t
      exact dropWhile_append_all hws htick
    simp only [dedentStep, fenceMatch, h1, h2]
    rw [if_pos ⟨hlen, hpre⟩]
  · intro n l h
    simp only [dedentStep]
    rw [if_pos h]
  · intro n l h1 h2
    simp only [dedentStep]
    rw [if_neg h1, if_pos h2]
  · intro n l h1 h2 h3
    simp only [dedentStep]
    rw [if_neg h1, if_neg (by simp [h2]), if_pos h3]
  · intro n l h1 h2 h3
    simp only [dedentStep]
    rw [if_neg h1, if_neg (by simp [h2]), if_neg h3]

/-- Witness for `c1_fence_dedent_amended` at concrete inputs. -/
theorem c1_fence_dedent_amended_witness :
    rstripL "  ```py ".data = "  ".data ++ "```py".data ∧
    "  ".data.all isPySpace = true ∧ 2 ≤ "  ".data.length ∧
    fence3.isPrefixOf "```py".data = true ∧
    dedentStep (false, 0) "  ```py ".data = ((true, 2), "```py".data) ∧
    stripL "    x".data ≠ fence3 ∧
    (List.replicate 2 ' ').isPrefixOf "    x".data = true ∧
    dedentStep (true, 2) "    x".data = ((true, 2), "  x".data) := by
  refine ⟨by decide, by decide, by decide, by decide, ?_, by decide, by decide, ?_⟩
  · exact c1_fence_dedent_amended.2.2.1 0 "  ```py ".data "  ".data "```py".data
      (by decide) (by decide) (by decide) (by decide)
  · have h := c1_fence_dedent_amended.2.2.2.2.1 2 "    x".data (by decide) (by decide)
    simpa using h

/-- **C1** (counterexample to the claim as stated): inside a fence opened
with indent 2, the blank input line of four spaces is emitted as the
two-space line `"  "`, not as the empty string: the `startswith(' ' * n)`
branch runs before the blank-line branch. -/
theorem c1_blank_line_counterexample :
    fence_dedent "  ```\n    \n  ```".data = "```\n  \n```".data ∧
    stripL "    ".data = [] ∧
    "  ".data ≠ ([] : List Char) := by
  exact ⟨by decide, by decide, by decide⟩

/-! ## C2: tab-indented fences -/

/-- **C2**: the code recognizes a fence preceded by two tabs as an
indented fence (the regex reads `\s{2,}`, not two *spaces*, contradicting
the source's own comment `Pattern: 2+ spaces`): the tab-indented opening
and closing fence lines are rewritten to bare markers instead of passing
through unchanged — while the content line keeps its tabs, since the
strip logic uses `' ' * indent`. -/
theorem c2_tab_fence_recognized :
    fence_dedent "\t\t```\n\t\tX\n\t\t```".data = "```\n\t\tX\n```".data ∧
    fence_dedent "\t\t```".data ≠ "\t\t```".data ∧
    fenceMatch (rstripL "\t\t```".data) = some (2, fence3) := by
  exact ⟨by decide, by decide, by decide⟩

/-! ## C3, C4, C10: the `/_check_update` endpoint -/

/-- **C3**: for every query (hence every filename), the change-check
response has HTTP status 200 with caching disabled, and whenever the
resolved file does not exist or its suffix is not `.md`, the body is the
structured JSON error payload.  `handle_update_check` is a total
function (the source wraps the body in `try/except`), so no exception
escapes. -/
theorem c3_update_check_error_payload (cfg : Config) (fs : FS) (q : Option String) :
    ((handle_update_check cfg fs q).2.status = 200 ∧
     (handle_update_check cfg fs q).2.cacheControl =
       some "no-cache, no-store, must-revalidate") ∧
    (lookupFile fs (q.getD "README.md") = none ∨ pySuffix (q.getD "README.md") ≠ ".md" →
      (handle_update_check cfg fs q).2.body =
        UpdateBody.err "File not found" (q.getD "README.md")) := by
  refine ⟨⟨rfl, rfl⟩, ?_⟩
  intro h
  rcases hl : lookupFile fs (q.getD "README.md") with _ | m
  · simp [handle_update_check, hl]
  · rcases h with h | h
    · rw [hl] at h; cases h
    · simp [handle_update_check, hl, h]

/-- Witness for `c3_update_check_error_payload`: a poll for a missing
file and a poll for a non-`.md` file both yield the error payload with
status 200. -/
theorem c3_update_check_error_payload_witness :
    (lookupFile [("notes.txt", 3)] "gone.md" = none ∨ pySuffix "gone.md" ≠ ".md") ∧
    (handle_update_check ⟨"/docs", "README.md", []⟩ [("notes.txt", 3)]
        (some "gone.md")).2.body = UpdateBody.err "File not found" "gone.md" ∧
    (lookupFile [("notes.txt", 3)] "notes.txt" = none ∨ pySuffix "notes.txt" ≠ ".md") ∧
    (handle_update_check ⟨"/docs", "README.md", []⟩ [("notes.txt", 3)]
        (some "notes.txt")).2.body = UpdateBody.err "File not found" "notes.txt" := by
  refine ⟨Or.inl (by decide), ?_, Or.inr (by decide), ?_⟩
  · exact (c3_update_check_error_payload ⟨"/docs", "README.md", []⟩ [("notes.txt", 3)]
      (some "gone.md")).2 (Or.inl (by decide))
  · exact (c3_update_check_error_payload ⟨"/docs", "README.md", []⟩ [("notes.txt", 3)]
      (some "notes.txt")).2 (Or.inr (by decide))

/-- **C4**: the change-check is idempotent and side-effect-free: the
configuration (the only server-held state the handler could touch) is
returned unchanged, a second call with the same filesystem returns the
identical response, and for an existing `.md` file the body carries the
stringified modification time. -/
theorem c4_update_check_idempotent (cfg : Config) (fs : FS) (f : String) (t : Nat)
    (hf : lookupFile fs f = some t) (hs : pySuffix f = ".md") :
    (handle_update_check cfg fs (some f)).1 = cfg ∧
    (handle_update_check ((handle_update_check cfg fs (some f)).1) fs (some f)).2 =
      (handle_update_check cfg fs (some f)).2 ∧
    (handle_update_check cfg fs (some f)).2.body = UpdateBody.ok (toString t) f := by
  refine ⟨rfl, rfl, ?_⟩
  simp [handle_update_check, hf, hs]

/-- Witness for `c4_update_check_idempotent`. -/
theorem c4_update_check_idempotent_witness :
    lookupFile [("guide.md", 41)] "guide.md" = some 41 ∧
    pySuffix "guide.md" = ".md" ∧
    (handle_update_check ⟨"/docs", "README.md", []⟩ [("guide.md", 41)]
        (some "guide.md")).1 = ⟨"/docs", "README.md", []⟩ ∧
    (handle_update_check ⟨"/docs", "README.md", []⟩ [("guide.md", 41)]
        (some "guide.md")).2.body = UpdateBody.ok "41" "guide.md" := by
  have h := c4_update_check_idempotent ⟨"/docs", "README.md", []⟩ [("guide.md", 41)]
    "guide.md" 41 (by decide) (by decide)
  exact ⟨by decide, by decide, h.1, h.2.2⟩

/-- **C10**: a query with no `file` parameter behaves exactly as
`file=README.md`; when `README.md` exists its modification token is
returned. -/
theorem c10_default_file_readme (cfg : Config) (fs : FS) (t : Nat)
    (h : lookupFile fs "README.md" = some t) :
    (handle_update_check cfg fs none).2 =
      (handle_update_check cfg fs (some "README.md")).2 ∧
    (handle_update_check cfg fs none).2.body = UpdateBody.ok (toString t) "README.md" := by
  refine ⟨rfl, ?_⟩
  simp [handle_update_check, h, show pySuffix "README.md" = ".md" from by decide]

/-- Witness for `c10_default_file_readme`. -/
theorem c10_default_file_readme_witness :
    lookupFile [("README.md", 99)] "README.md" = some 99 ∧
    (handle_update_check ⟨"/docs", "README.md", []⟩ [("README.md", 99)] none).2.body =
      UpdateBody.ok "99" "README.md" := by
  have h := c10_default_file_readme ⟨"/docs", "README.md", []⟩ [("README.md", 99)]
    99 (by decide)
  exact ⟨by decide, h.2⟩

/-! ## C5: navigation ordering -/

theorem lexLeB_total (a : List Char) : ∀ b, lexLeB a b = true ∨ lexLeB b a = true := by
  induction a with
  | nil => intro b; exact Or.inl rfl
  | cons x xs ih =>
    intro b
    cases b with
    | nil => exact Or.inr rfl
    | cons y ys =>
      by_cases hxy : x = y
      · subst hxy
        rcases ih ys with h | h
        · exact Or.inl (by simpa [lexLeB] using h)
        · exact Or.inr (by simpa [lexLeB] using h)
      · rcases lt_or_gt_of_ne hxy with h | h
        · exact Or.inl (by simp [lexLeB, hxy, h])
        · have hyx : ¬y = x := fun e => hxy e.symm
          have h' : y < x := h
          exact Or.inr (by simp [lexLeB, hyx, h'])

theorem lexLeB_trans : ∀ {a b c : List Char},
    lexLeB a b = true → lexLeB b c = true → lexLeB a c = true := by
  intro a
  induction a with
  | nil => intro b c _ _; rfl
  | cons x xs ih =>
    intro b c h1 h2
    cases b with
    | nil => simp [lexLeB] at h1
    | cons y ys =>
      cases c with
      | nil => simp [lexLeB] at h2
      | cons z zs =>
        by_cases hxy : x = y <;> by_cases hyz : y = z
        · subst hxy; subst hyz
          simp only [lexLeB, if_pos rfl] at h1 h2 ⊢
          exact ih h1 h2
        · subst hxy
          simp only [lexLeB, if_pos rfl, if_neg hyz] at h2
          simp only [lexLeB, if_neg hyz]
          exact h2
        · subst hyz
          simp only [lexLeB, if_neg hxy] at h1
          simp only [lexLeB, if_neg hxy]
          exact h1
        · simp only [lexLeB, if_neg hxy] at h1
          simp only [lexLeB, if_neg hyz] at h2
          have hxz : x < z := lt_trans (of_decide_eq_true h1) (of_decide_eq_true h2)
          simp [lexLeB, ne_of_lt hxz, hxz]

theorem lexLeB_ne_lt : ∀ {a b : List Char},
    lexLeB a b = true → a ≠ b → lexLtB a b = true := by
  intro a
  induction a with
  | nil =>
    intro b _ hne
    cases b with
    | nil => exact absurd rfl hne
    | cons y ys => rfl
  | cons x xs ih =>
    intro b h hne
    cases b with
    | nil => simp [lexLeB] at h
    | cons y ys =>
      by_cases hxy : x = y
      · subst hxy
        simp only [lexLeB, if_pos rfl] at h
        have : xs ≠ ys := fun e => hne (by rw [e])
        simpa [lexLtB] using ih h this
      · simp only [lexLeB, if_neg hxy] at h
        simp [lexLtB, hxy, of_decide_eq_true h]

theorem strData_inj {a b : String} (h : a.data = b.data) : a = b := by
  cases a; cases b; exact congrArg String.mk h

theorem navLe_total (a b : String) : navLe a b ∨ navLe b a := by
  rcases lt_trichotomy (navKey a) (navKey b) with h | h | h
  · exact Or.inl (Or.inl h)
  · rcases lexLeB_total a.data b.data with hl | hl
    · exact Or.inl (Or.inr ⟨h, hl⟩)
    · exact Or.inr (Or.inr ⟨h.symm, hl⟩)
  · exact Or.inr (Or.inl h)

theorem navLe_trans {a b c : String} (h1 : navLe a b) (h2 : navLe b c) : navLe a c := by
  rcases h1 with h1 | ⟨h1, h1'⟩
  · rcases h2 with h2 | ⟨h2, _⟩
    · exact Or.inl (h1.trans h2)
    · exact Or.inl (h2 ▸ h1)
  · rcases h2 with h2 | ⟨h2, h2'⟩
    · exact Or.inl (h1 ▸ h2)
    · exact Or.inr ⟨h1.trans h2, lexLeB_trans h1' h2'⟩

/-- **C5** (counterexample to the claim as stated): `generate_nav`'s sort
key hard-codes the literal `'README.md'` (line 648) and ignores the
configured default document (`DEFAULT_FILE`, which becomes the name given
on the command line, lines 83-88).  With configured default `Z.md` and
root files `B.md` and `Z.md`, the navigation lists `B.md` first, not the
configured default. -/
theorem c5_configured_default_counterexample :
    (Config.mk "/docs" "Z.md" []).defaultFile = "Z.md" ∧
    "Z.md" ∈ ["B.md", "Z.md"] ∧
    navFileNames [] [⟨["docs", "B.md"]⟩, ⟨["docs", "Z.md"]⟩] = ["B.md", "Z.md"] ∧
    ("B.md" : String) ≠ "Z.md" :=
  ⟨rfl, by decide, by decide, by decide⟩

/-- **C5** (amended): for every duplicate-free set of filenames that
contains `README.md`, the nav sort places `README.md` first and all other
entries after it in strict lexicographic (code-point) order. -/
theorem c5_readme_first_rest_sorted (files : List String)
    (hnd : files.Nodup) (hmem : "README.md" ∈ files) :
    (sortNavFiles files).head? = some "README.md" ∧
    (sortNavFiles files).tail.Pairwise strLt ∧
    (sortNavFiles files).tail.Perm (files.erase "README.md") := by
  haveI : IsTotal String navLe := ⟨navLe_total⟩
  haveI : IsTrans String navLe := ⟨fun _ _ _ => navLe_trans⟩
  have hperm : (sortNavFiles files).Perm files := List.perm_insertionSort navLe files
  have hsorted : List.Sorted navLe (sortNavFiles files) :=
    List.sorted_insertionSort navLe files
  have hnd' : (sortNavFiles files).Nodup := hperm.nodup_iff.mpr hnd
  have hmem' : "README.md" ∈ sortNavFiles files := hperm.mem_iff.mpr hmem
  rcases hs : sortNavFiles files with _ | ⟨x, xs⟩
  · rw [hs] at hmem'; cases hmem'
  · rw [hs] at hperm hsorted hnd' hmem'
    have hx : x = "README.md" := by
      by_contra hx
      have hin : "README.md" ∈ xs := by
        rcases List.mem_cons.mp hmem' with h | h
        · exact absurd h.symm hx
        · exact h
      have hrel := List.rel_of_sorted_cons hsorted _ hin
      have hkeyx : navKey x = 1 := by simp [navKey, hx]
      have hkeyR : navKey "README.md" = 0 := by simp [navKey]
      rcases hrel with h | ⟨h, _⟩
      · rw [hkeyx, hkeyR] at h; exact absurd h (by decide)
      · rw [hkeyx, hkeyR] at h; exact absurd h (by decide)
    subst hx
    have hnotin : ∀ y ∈ xs, y ≠ "README.md" := by
      intro y hy he
      exact (List.nodup_cons.mp hnd').1 (he ▸ hy)
    refine ⟨rfl, ?_, ?_⟩
    · have hpw : xs.Pairwise navLe := hsorted.of_cons
      have hne : xs.Pairwise (fun a b => a ≠ b) := (List.nodup_cons.mp hnd').2
      refine (hpw.and hne).imp_of_mem ?_
      intro a b ha hb hab
      rcases hab with ⟨hle | ⟨_, hle⟩, hne'⟩
      · have ha1 : navKey a = 1 := by simp [navKey, hnotin a ha]
        have hb1 : navKey b = 1 := by simp [navKey, hnotin b hb]
        rw [ha1, hb1] at hle
        exact absurd hle (by decide)
      · exact lexLeB_ne_lt hle (fun e => hne' (strData_inj e))
    · have := hperm.erase "README.md"
      rwa [List.erase_cons_head] at this

/-- Witness for `c5_readme_first_rest_sorted` at a concrete directory
listing; the conclusion is realized through the theorem. -/
theorem c5_readme_first_rest_sorted_witness :
    (["b.md", "README.md", "A.md"] : List String).Nodup ∧
    "README.md" ∈ (["b.md", "README.md", "A.md"] : List String) ∧
    (sortNavFiles ["b.md", "README.md", "A.md"]).head? = some "README.md" ∧
    (sortNavFiles ["b.md", "README.md", "A.md"]).tail.Pairwise strLt ∧
    (sortNavFiles ["b.md", "README.md", "A.md"]).tail.Perm
      ((["b.md", "README.md", "A.md"] : List String).erase "README.md") := by
  have h := c5_readme_first_rest_sorted ["b.md", "README.md", "A.md"]
    (by decide) (by decide)
  exact ⟨by decide, by decide, h.1, h.2.1, h.2.2⟩

/-! ## C6: exclusion -/

/-- **C6**: a document one of whose path segments, lowercased, equals the
lowercased strip of a configured exclusion token never appears in the
navigation list (filenames in one directory are distinct, hence the
`Nodup` hypothesis on names). -/
theorem c6_excluded_never_listed (env : String) (files : List MdFile) (f : MdFile)
    (seg : String) (tok : List Char)
    (hf : f ∈ files) (hseg : seg ∈ f.parts)
    (htok : tok ∈ splitOnChar ',' env.data) (hne : stripL tok ≠ [])
    (hmatch : (⟨(stripL tok).map Char.toLower⟩ : String) = pyLower seg)
    (hnames : (files.map MdFile.name).Nodup) :
    f.name ∉ navFileNames (mkExcludeDirs env) files := by
  intro hmem
  have hmem' : f.name ∈ (files.filter (notExcluded (mkExcludeDirs env))).map MdFile.name := by
    have hperm := List.perm_insertionSort navLe
      ((files.filter (notExcluded (mkExcludeDirs env))).map MdFile.name)
    exact hperm.mem_iff.mp hmem
  obtain ⟨g, hg, hgname⟩ := List.mem_map.mp hmem'
  have hgfiles : g ∈ files := List.mem_of_mem_filter hg
  have hgkept : notExcluded (mkExcludeDirs env) g = true := List.of_mem_filter hg
  have hgf : g = f := List.inj_on_of_nodup_map hnames hgfiles hf hgname
  subst hgf
  have hexcl : (mkExcludeDirs env).any
      (fun e => (g.parts.map pyLower).contains e) = true := by
    rw [List.any_eq_true]
    refine ⟨pyLower seg, ?_, ?_⟩
    · rw [← hmatch]
      exact List.mem_map.mpr
        ⟨tok, List.mem_filter.mpr ⟨htok, by simpa using hne⟩, rfl⟩
    · exact List.elem_iff.mpr (List.mem_map.mpr ⟨seg, hseg, rfl⟩)
  unfold notExcluded at hgkept
  rw [hexcl] at hgkept
  simp at hgkept

/-- Witness for `c6_excluded_never_listed`: the token `Archive` from
`EXCLUDE_DIRS="Archive, node_modules"` hides `/home/ARCHIVE/x.md`
although neither the configured token nor the on-disk segment is
lowercase. -/
theorem c6_excluded_never_listed_witness :
    "Archive".data ∈ splitOnChar ',' "Archive, node_modules".data ∧
    stripL "Archive".data ≠ [] ∧
    (⟨(stripL "Archive".data).map Char.toLower⟩ : String) = pyLower "ARCHIVE" ∧
    (MdFile.mk ["home", "ARCHIVE", "x.md"]).name ∉
      navFileNames (mkExcludeDirs "Archive, node_modules")
        [⟨["home", "ARCHIVE", "x.md"]⟩, ⟨["home", "docs", "y.md"]⟩] := by
  refine ⟨by decide, by decide, by decide, ?_⟩
  exact c6_excluded_never_listed "Archive, node_modules"
    [⟨["home", "ARCHIVE", "x.md"]⟩, ⟨["home", "docs", "y.md"]⟩]
    ⟨["home", "ARCHIVE", "x.md"]⟩ "ARCHIVE" "Archive".data
    (by decide) (by decide) (by decide) (by decide) (by decide) (by decide)

/-! ## C7: title extraction -/

theorem titleFromLines_none {ls : List (List Char)}
    (h : ∀ l ∈ ls, l.head? ≠ some '#') : titleFromLines ls = none := by
  induction ls with
  | nil => rfl
  | cons l ls ih =>
    have hrest := ih (fun l' hl' => h l' (by simp [hl']))
    cases l with
    | nil => simpa [titleFromLines] using hrest
    | cons c rest =>
      have hc : ¬c = '#' := by
        intro e
        exact h (c :: rest) (by simp) (by simp [e])
      simpa [titleFromLines, hc] using hrest

theorem titleFromLines_cons_heading {l : List Char} {t : List Char}
    (hl : lineHeading l = some t) (post : List (List Char)) :
    titleFromLines (l :: post) = some t := by
  cases l with
  | nil => simp [lineHeading] at hl
  | cons c rest =>
    rw [lineHeading] at hl
    split at hl
    · rename_i hcond
      obtain ⟨hc, hk, hd⟩ := hcond
      cases hl
      have hlen : (rest.takeWhile isPySpace).length < rest.length := by
        have := List.takeWhile_append_dropWhile isPySpace rest
        have hlen' : (rest.takeWhile isPySpace).length +
            (rest.dropWhile isPySpace).length = rest.length := by
          rw [← List.length_append, this]
        have hpos : 0 < (rest.dropWhile isPySpace).length :=
          List.length_pos.mpr hd
        omega
      have hk0 : ¬(rest.takeWhile isPySpace).length = 0 := by omega
      simp only [titleFromLines, if_pos hc, matchHashCross, if_pos hlen, if_neg hk0]
    · cases hl

theorem titleFromLines_append {pre : List (List Char)} {l : List Char}
    {t : List Char} (hpre : ∀ l' ∈ pre, l'.head? ≠ some '#')
    (hl : lineHeading l = some t) (post : List (List Char)) :
    titleFromLines (pre ++ l :: post) = some t := by
  induction pre with
  | nil => exact titleFromLines_cons_heading hl post
  | cons p pre ih =>
    have hrest := ih (fun l' hl' => hpre l' (by simp [hl']))
    cases p with
    | nil => simpa [titleFromLines] using hrest
    | cons c rest =>
      have hc : ¬c = '#' := by
        intro e
        exact hpre (c :: rest) (by simp) (by simp [e])
      simpa [titleFromLines, hc] using hrest

/-- **C7** (amended): the page title is the first match of the multiline
heading regex in the pre-processed text (`conversion_input`, the text
given to markdown conversion).  In particular: if no line of that text
starts with `'#'`, the title is the filename stem; and if some line is a
self-contained top-level heading (`'#'`, whitespace, then text) and no
earlier line starts with `'#'`, the title is that heading's text. -/
theorem c7_title_amended :
    (∀ raw stem, (∀ l ∈ splitOnChar '\n' (conversion_input raw),
        l.head? ≠ some '#') → page_title raw stem = stem) ∧
    (∀ raw stem pre l post t,
      splitOnChar '\n' (conversion_input raw) = pre ++ l :: post →
      (∀ l' ∈ pre, l'.head? ≠ some '#') → lineHeading l = some t →
      page_title raw stem = ⟨t⟩) := by
  constructor
  · intro raw stem h
    unfold page_title
    rw [titleFromLines_none h]
  · intro raw stem pre l post t hsplit hpre hl
    unfold page_title
    rw [hsplit, titleFromLines_append hpre hl post]

/-- Witness for `c7_title_amended` at a concrete document. -/
theorem c7_title_amended_witness :
    splitOnChar '\n' (conversion_input "intro\n# Hello World\nbody".data) =
      ["intro".data] ++ "# Hello World".data :: ["body".data] ∧
    lineHeading "# Hello World".data = some "Hello World".data ∧
    page_title "intro\n# Hello World\nbody".data "doc" = "Hello World" := by
  refine ⟨by decide, by decide, ?_⟩
  exact c7_title_amended.2 "intro\n# Hello World\nbody".data "doc"
    ["intro".data] "# Hello World".data ["body".data] "Hello World".data
    (by decide) (by decide) (by decide)

/-- **C7** (counterexample to the claim as stated): in the document
`"#\nabc"` no single line matches a top-level heading pattern, so the
claim requires the fallback title (the filename stem); but `\s` matches
the newline in the multiline regex, so the source titles the page
`"abc"`. -/
theorem c7_title_counterexample :
    (splitOnChar '\n' (conversion_input "#\nabc".data)).all
      (fun l => (lineHeading l).isNone) = true ∧
    page_title "#\nabc".data "stem" = "abc" ∧
    ("abc" : String) ≠ "stem" :=
  ⟨by decide, by decide, by decide⟩

/-! ## C8, C9: display names and descriptions -/

theorem replaceMd_of_not_hasMd {s : List Char} (h : hasMd s = false) :
    replaceMd s = s := by
  induction s using replaceMd.induct with
  | case1 rest => simp [hasMd] at h
  | case2 c rest h1 ih =>
    rw [hasMd.eq_2 _ _ (fun r hc hr => h1 r hc hr)] at h
    rw [replaceMd.eq_2 _ _ (fun r hc hr => h1 r hc hr), ih h]
  | case3 => rfl

theorem replaceMd_append_md : ∀ {s : List Char}, hasMd s = false →
    replaceMd (s ++ '.' :: 'm' :: 'd' :: []) = s := by
  intro s
  induction s using hasMd.induct with
  | case1 rest => intro h; simp [hasMd] at h
  | case2 c rest h1 ih =>
    intro h
    rw [hasMd.eq_2 _ _ (fun r hc hr => h1 r hc hr)] at h
    have hne : ∀ (r : List Char), c = '.' →
        rest ++ '.' :: 'm' :: 'd' :: [] = 'm' :: 'd' :: r → False := by
      intro r hc hr
      cases rest with
      | nil => simp at hr
      | cons a as =>
        cases as with
        | nil => simp at hr
        | cons b bs =>
          have h1' : a = 'm' ∧ b = 'd' := by
            have h2' := congrArg (fun l => l.take 2) hr
            simp at h2'
            exact ⟨h2'.1, h2'.2⟩
          exact h1 bs hc (by rw [h1'.1, h1'.2])
    rw [List.cons_append, replaceMd.eq_2 _ _ hne, ih h]
  | case3 => intro _; rfl

theorem splitOnChar_cons (sep c : Char) (cs : List Char) :
    splitOnChar sep (c :: cs) =
      match splitOnChar sep cs with
      | [] => [[]]
      | l :: ls => if c = sep then [] :: l :: ls else (c :: l) :: ls := rfl

theorem splitOnChar_ne_nil (sep : Char) (l : List Char) : splitOnChar sep l ≠ [] := by
  cases l with
  | nil => simp [splitOnChar]
  | cons c cs =>
    rw [splitOnChar_cons]
    rcases splitOnChar sep cs with _ | ⟨x, xs⟩
    · simp
    · by_cases hc : c = sep <;> simp [hc]

theorem splitOnChar_not_mem {sep : Char} {l : List Char} (h : sep ∉ l) :
    splitOnChar sep l = [l] := by
  induction l with
  | nil => rfl
  | cons c cs ih =>
    have hc : ¬c = sep := fun e => h (by simp [e])
    have hcs : sep ∉ cs := fun hm => h (by simp [hm])
    simp only [splitOnChar, ih hcs]
    rw [if_neg hc]

theorem splitOnChar_append_sep {sep : Char} {x : List Char} (t : List Char)
    (hx : sep ∉ x) :
    splitOnChar sep (x ++ sep :: t) = x :: splitOnChar sep t := by
  induction x with
  | nil =>
    rw [List.nil_append, splitOnChar_cons]
    rcases h : splitOnChar sep t with _ | ⟨l, ls⟩
    · exact absurd h (splitOnChar_ne_nil sep t)
    · simp
  | cons c cs ih =>
    have hc : ¬c = sep := fun e => hx (by simp [e])
    have hcs : sep ∉ cs := fun hm => hx (by simp [hm])
    rw [List.cons_append, splitOnChar_cons, ih hcs]
    simp [hc]

theorem splitOnChar_joinWith {sep : Char} : ∀ {segs : List (List Char)},
    segs ≠ [] → (∀ s ∈ segs, sep ∉ s) →
    splitOnChar sep (joinWith sep segs) = segs := by
  intro segs
  induction segs with
  | nil => intro h; exact absurd rfl h
  | cons x xs ih =>
    intro _ hall
    cases xs with
    | nil => simpa [joinWith] using splitOnChar_not_mem (hall x (by simp))
    | cons y ys =>
      rw [show joinWith sep (x :: y :: ys) = x ++ sep :: joinWith sep (y :: ys)
        from rfl]
      rw [splitOnChar_append_sep _ (hall x (by simp))]
      rw [ih (by simp) (fun s hs => hall s (by simp [hs]))]

theorem string_mk_data (s : String) : (⟨s.data⟩ : String) = s := by
  cases s; rfl

/-- **C8** (counterexample to the claim as stated): a remaining segment
that is itself short all-caps is kept verbatim, not title-cased:
`HLD_API_Design.md` formats to `HLD - API Design`, whereas title-casing
the remaining segments, as the claim states, would give
`HLD - Api Design`. -/
theorem c8_display_name_counterexample :
    format_display_name "HLD_API_Design.md" = "HLD - API Design" ∧
    ("HLD - API Design" : String) ≠ "HLD - Api Design" ∧
    pyCapitalizeL "API".data = "Api".data :=
  ⟨by decide, by decide, by decide⟩

/-- **C8** (amended): the claim's example holds, and in general, for a
filename built of underscore-separated segments followed by `.md` (with
no stray `.md` inside and not spelling `readme`), the leading short
all-caps abbreviation is followed by `' - '` and the remaining segments
joined by spaces, where a short all-caps segment is kept verbatim and
any other segment is capitalized; without a leading abbreviation all
segments are formatted that way and joined by spaces. -/
theorem c8_display_name_amended :
    format_display_name "HLD_System_Design.md" = "HLD - System Design" ∧
    (∀ segs : List (List Char), segs ≠ [] → (∀ s ∈ segs, '_' ∉ s) →
      hasMd (joinWith '_' segs) = false →
      (joinWith '_' segs).map Char.toUpper ≠ "README".data →
      format_display_name ⟨joinWith '_' segs ++ ".md".data⟩ =
        if 1 < segs.length ∧ pyIsUpperL (segs.headD []) = true ∧
            (segs.headD []).length ≤ 5 then
          ⟨(segs.headD []) ++ " - ".data ++ joinWith ' ' (segs.tail.map fmtPart)⟩
        else ⟨joinWith ' ' (segs.map fmtPart)⟩) := by
  refine ⟨by decide, ?_⟩
  intro segs hne hsep hmd hread
  have hr : replaceMd ((⟨joinWith '_' segs ++ ".md".data⟩ : String).data) =
      joinWith '_' segs := replaceMd_append_md hmd
  simp only [format_display_name]
  rw [hr, if_neg hread, splitOnChar_joinWith hne hsep]
  rcases segs with _ | ⟨x, xs⟩
  · exact absurd rfl hne
  · simp only [List.map_cons, List.headD_cons, List.tail_cons, List.length_cons,
      List.length_map]
    by_cases habb : pyIsUpperL x = true ∧ x.length ≤ 5
    · cases xs with
      | nil => rw [if_neg (by simp), if_neg (by simp)]
      | cons y ys =>
        have hlen : 1 < (y :: ys).length + 1 := by simp
        rw [if_pos ⟨⟨hlen, habb.1, habb.2⟩, by simp⟩,
          if_pos ⟨hlen, habb.1, habb.2⟩]
        have hfx : fmtPart x = x := by unfold fmtPart; rw [if_pos habb]
        rw [hfx]
    · have hnot : ¬(1 < xs.length + 1 ∧ pyIsUpperL x = true ∧ x.length ≤ 5) :=
        fun h => habb ⟨h.2.1, h.2.2⟩
      rw [if_neg (fun h => hnot h.1), if_neg hnot]

/-- Witness for `c8_display_name_amended` at the segments `API`, `Guide`. -/
theorem c8_display_name_amended_witness :
    (["API".data, "Guide".data] : List (List Char)) ≠ [] ∧
    hasMd (joinWith '_' ["API".data, "Guide".data]) = false ∧
    (joinWith '_' ["API".data, "Guide".data]).map Char.toUpper ≠ "README".data ∧
    format_display_name "API_Guide.md" = "API - Guide" := by
  refine ⟨by decide, by decide, by decide, ?_⟩
  have h := c8_display_name_amended.2 ["API".data, "Guide".data]
    (by decide) (by decide) (by decide) (by decide)
  have e : (⟨joinWith '_' ["API".data, "Guide".data] ++ ".md".data⟩ : String) =
      "API_Guide.md" := by decide
  rw [e] at h
  rw [h]
  decide

/-- **C9** (counterexample to the claim as stated): the fallback
description is `filename.replace('.md', '')`, which removes *every*
occurrence of `.md`, not just the extension: an unreadable `a.md.md` is
described as `a`, not `a.md`. -/
theorem c9_description_counterexample :
    get_file_description none "a.md.md" = "a" ∧ ("a" : String) ≠ "a.md" :=
  ⟨by decide, by decide⟩

/-- **C9** (amended): the description depends only on the first five
lines of the file; an unreadable file, or one whose first five lines
contain no heading match, falls back to the filename with every `.md`
occurrence removed — which is exactly the filename with its extension
stripped whenever `.md` occurs only as the final extension.  The whole
operation is a total function, so no exception escapes it. -/
theorem c9_description_amended :
    (∀ c₁ c₂ fn, takeLinesC 5 c₁ = takeLinesC 5 c₂ →
      get_file_description (some c₁) fn = get_file_description (some c₂) fn) ∧
    (∀ fn, get_file_description none fn = ⟨replaceMd fn.data⟩) ∧
    (∀ c fn, titleFromLines (splitOnChar '\n' (takeLinesC 5 c)) = none →
      get_file_description (some c) fn = ⟨replaceMd fn.data⟩) ∧
    (∀ base : String, hasMd base.data = false →
      get_file_description none (base ++ ".md") = base) := by
  refine ⟨?_, fun fn => rfl, ?_, ?_⟩
  · intro c₁ c₂ fn h
    show (match titleFromLines (splitOnChar '\n' (takeLinesC 5 c₁)) with
      | some t => (⟨stripL (removeEmoji (stripL t))⟩ : String)
      | none => ⟨replaceMd fn.data⟩) =
      (match titleFromLines (splitOnChar '\n' (takeLinesC 5 c₂)) with
      | some t => (⟨stripL (removeEmoji (stripL t))⟩ : String)
      | none => ⟨replaceMd fn.data⟩)
    rw [h]
  · intro c fn h
    show (match titleFromLines (splitOnChar '\n' (takeLinesC 5 c)) with
      | some t => (⟨stripL (removeEmoji (stripL t))⟩ : String)
      | none => ⟨replaceMd fn.data⟩) = ⟨replaceMd fn.data⟩
    rw [h]
  · intro base h
    show (⟨replaceMd (base ++ ".md").data⟩ : String) = base
    rw [String.data_append]
    rw [show replaceMd (base.data ++ ".md".data) = base.data from replaceMd_append_md h,
      string_mk_data base]

/-- Witness for `c9_description_amended` at concrete inputs. -/
theorem c9_description_amended_witness :
    titleFromLines (splitOnChar '\n' (takeLinesC 5 "plain text\nno heading".data)) =
      none ∧
    get_file_description (some "plain text\nno heading".data) "f.md" =
      ⟨replaceMd "f.md".data⟩ ∧
    hasMd "notes".data = false ∧
    get_file_description none ("notes" ++ ".md") = "notes" := by
  refine ⟨by decide, ?_, by decide, ?_⟩
  · exact c9_description_amended.2.2.1 "plain text\nno heading".data "f.md" (by decide)
  · exact c9_description_amended.2.2.2 "notes" (by decide)
